import Mathlib

/-!
Verification of the retained-tree / incremental-state core of this repository:
the change-mask model (node_ref.rs), the focus pass and focus traversal
(focus.rs), and the mutation interpreter and state-resolution entry points
(real_dom.rs), shallowly embedded in Lean.

Machine integers are modelled as Nat/Int with explicit truncation where the
source truncates; fallible source code (unwrap, panic) is modelled with
Option, where `none` stands for the panic.
-/

namespace Blitz

/-- The focus level of a node, from `FocusLevel` in focus.rs.  In the source
the rank of `Ordered` is a `NonZeroU16`; the model carries the value of that
u16 as a `Nat` (the code only ever constructs it non-zero). -/
inductive FocusLevel where
  | Unfocusable
  | Focusable
  | Ordered (rank : Nat)
deriving DecidableEq, Repr

/-- `FocusLevel::focusable` from focus.rs. -/
def FocusLevel.focusable : FocusLevel → Bool
  | .Unfocusable => false
  | .Focusable => true
  | .Ordered _ => true

/-- The hand-written `impl PartialOrd for FocusLevel` from focus.rs, arm by
arm.  The `Ordered`/`Ordered` arm is `a.partial_cmp(b)` on the u16 ranks,
which always returns `Some` of the comparison of the values. -/
def FocusLevel.partialCmp : FocusLevel → FocusLevel → Option Ordering
  | .Unfocusable, .Unfocusable => some .eq
  | .Unfocusable, .Focusable => some .lt
  | .Unfocusable, .Ordered _ => some .lt
  | .Focusable, .Unfocusable => some .gt
  | .Focusable, .Focusable => some .eq
  | .Focusable, .Ordered _ => some .gt
  | .Ordered _, .Unfocusable => some .gt
  | .Ordered _, .Focusable => some .lt
  | .Ordered a, .Ordered b => some (compare a b)

/-- C1 (counterexample): under the comparison the focus traversal actually
uses (the hand-written `PartialOrd` in focus.rs), `Focusable` does NOT
compare below `Ordered(1)`: `partial_cmp` returns `Greater`, not `Less`, so
the claimed order `Focusable < Ordered(n)` is false. -/
theorem focusLevel_focusable_not_lt_ordered :
    FocusLevel.partialCmp .Focusable (.Ordered 1) ≠ some Ordering.lt := by
  decide

/-- C1 (amended): the comparison used by the focus traversal is total and
strictly increasing as `Unfocusable < Ordered(n) < Focusable` for every
positive rank n (all explicit positive ranks sort BELOW the unordered
`Focusable` level, which sorts above `Unfocusable` and above every
`Ordered`), and `Ordered(a)` compares to `Ordered(b)` as a compares to b. -/
theorem focusLevel_order_total_amended :
    (∀ x y : FocusLevel, (FocusLevel.partialCmp x y).isSome = true) ∧
    FocusLevel.partialCmp .Unfocusable .Focusable = some Ordering.lt ∧
    (∀ n : Nat, 0 < n →
      FocusLevel.partialCmp .Unfocusable (.Ordered n) = some Ordering.lt ∧
      FocusLevel.partialCmp (.Ordered n) .Focusable = some Ordering.lt) ∧
    (∀ a b : Nat,
      FocusLevel.partialCmp (.Ordered a) (.Ordered b) = some (compare a b)) := by
  refine ⟨?_, rfl, ?_, ?_⟩
  · intro x y
    cases x <;> cases y <;> simp [FocusLevel.partialCmp]
  · intro n _
    exact ⟨rfl, rfl⟩
  · intro a b
    rfl

/-- Witness for the amended C1 theorem at rank 2. -/
theorem focusLevel_order_total_amended_witness :
    0 < 2 ∧
    FocusLevel.partialCmp .Unfocusable (.Ordered 2) = some Ordering.lt ∧
    FocusLevel.partialCmp (.Ordered 2) .Focusable = some Ordering.lt :=
  ⟨by decide,
    (focusLevel_order_total_amended.2.2.1 2 (by decide)).1,
    (focusLevel_order_total_amended.2.2.1 2 (by decide)).2⟩

/-- Character-wise lexicographic strict order on character lists, used to
model the `Ord` of Rust string slices on the attribute-name lists.  Defined
by structural recursion so the kernel can evaluate it on literals. -/
def lexLt : List Char → List Char → Bool
  | [], [] => false
  | [], _ :: _ => true
  | _ :: _, [] => false
  | a :: as, b :: bs =>
    if a < b then true
    else if b < a then false
    else lexLt as bs

/-- Strict order on strings via their character lists (agrees with the
library order on `String`, see `strLt_iff`). -/
def strLt (a b : String) : Bool := lexLt a.data b.data

theorem lexLt_iff : ∀ l₁ l₂ : List Char, lexLt l₁ l₂ = true ↔ l₁ < l₂ := by
  intro l₁
  induction l₁ with
  | nil =>
    intro l₂
    cases l₂ with
    | nil =>
      simp only [lexLt, Bool.false_eq_true, false_iff]
      exact fun h => nomatch h
    | cons b bs =>
      simp only [lexLt, true_iff]
      exact List.Lex.nil
  | cons a as ih =>
    intro l₂
    cases l₂ with
    | nil =>
      simp only [lexLt, Bool.false_eq_true, false_iff]
      exact fun h => nomatch h
    | cons b bs =>
      by_cases hab : a < b
      · simp only [lexLt, if_pos hab, true_iff]
        exact List.Lex.rel hab
      · by_cases hba : b < a
        · simp only [lexLt, if_neg hab, if_pos hba, Bool.false_eq_true,
            false_iff]
          intro h
          cases h with
          | cons h3 => exact absurd hba (lt_irrefl a)
          | rel h1 => exact absurd h1 (lt_asymm hba)
        · have hab2 : a = b := le_antisymm (le_of_not_lt hba) (le_of_not_lt hab)
          subst hab2
          simp only [lexLt, if_neg hab, if_neg hba, ih bs]
          constructor
          · exact fun h => List.Lex.cons h
          · intro h
            cases h with
            | cons h3 => exact h3
            | rel h1 => exact absurd h1 (lt_irrefl a)

theorem strLt_iff {a b : String} : strLt a b = true ↔ a < b := by
  rw [String.lt_iff_toList_lt]
  exact lexLt_iff a.data b.data

/-- Boolean check that a list of strings is strictly increasing (the
representation invariant `verify()` asserts in node_ref.rs). -/
def sortedStr : List String → Bool
  | [] => true
  | [_] => true
  | a :: b :: t => strLt a b && sortedStr (b :: t)

theorem sortedStr_iff : ∀ l : List String,
    sortedStr l = true ↔ l.Sorted (· < ·) := by
  intro l
  match l with
  | [] => simp [sortedStr]
  | [a] => simp [sortedStr]
  | a :: b :: t =>
    rw [List.sorted_cons_cons]
    simp only [sortedStr, Bool.and_eq_true, strLt_iff, sortedStr_iff (b :: t)]

/-- Fuel-driven sorted merge.  The fuel is structural so that the kernel can
evaluate the function; `mergeSorted` below always supplies enough fuel, so
the fuel-exhausted branch is never reached. -/
def mergeSortedGo : Nat → List String → List String → List String
  | 0, s, o => s ++ o
  | _ + 1, [], o => o
  | _ + 1, s, [] => s
  | fuel + 1, x :: xs, y :: ys =>
    if strLt x y then x :: mergeSortedGo fuel xs (y :: ys)
    else if strLt y x then y :: mergeSortedGo fuel (x :: xs) ys
    else x :: mergeSortedGo fuel xs ys

/-- Modelled from the spec: `union_ordered_iter` lives in `crate::state`,
which is not among the sources here.  Per §4.2 union "merges two masks into
the smallest representation that is a superset of both" over sorted lists:
a linear sorted merge that keeps one copy of common elements. -/
def mergeSorted (l₁ l₂ : List String) : List String :=
  mergeSortedGo (l₁.length + l₂.length) l₁ l₂

theorem not_strLt_not_strGt_eq {x y : String}
    (hxy : ¬ strLt x y = true) (hyx : ¬ strLt y x = true) : x = y :=
  le_antisymm (le_of_not_lt (mt strLt_iff.mpr hyx))
    (le_of_not_lt (mt strLt_iff.mpr hxy))

theorem mem_mergeSortedGo (a : String) :
    ∀ (fuel : Nat) (l₁ l₂ : List String),
      a ∈ mergeSortedGo fuel l₁ l₂ ↔ a ∈ l₁ ∨ a ∈ l₂ := by
  intro fuel
  induction fuel with
  | zero => intro l₁ l₂; simp [mergeSortedGo]
  | succ n ih =>
    intro l₁ l₂
    match l₁, l₂ with
    | [], o => simp [mergeSortedGo]
    | x :: xs, [] => simp [mergeSortedGo]
    | x :: xs, y :: ys =>
      by_cases hxy : strLt x y = true
      · simp only [mergeSortedGo, if_pos hxy, List.mem_cons, ih]
        tauto
      · by_cases hyx : strLt y x = true
        · simp only [mergeSortedGo, if_neg hxy, if_pos hyx, List.mem_cons, ih]
          tauto
        · have hx : x = y := not_strLt_not_strGt_eq hxy hyx
          subst hx
          simp only [mergeSortedGo, if_neg hxy, if_neg hyx, List.mem_cons, ih]
          tauto

theorem mem_mergeSorted (a : String) (l₁ l₂ : List String) :
    a ∈ mergeSorted l₁ l₂ ↔ a ∈ l₁ ∨ a ∈ l₂ :=
  mem_mergeSortedGo a _ l₁ l₂

theorem sorted_mergeSortedGo :
    ∀ (fuel : Nat) (l₁ l₂ : List String),
      l₁.length + l₂.length ≤ fuel →
      l₁.Sorted (· < ·) → l₂.Sorted (· < ·) →
      (mergeSortedGo fuel l₁ l₂).Sorted (· < ·) := by
  intro fuel
  induction fuel with
  | zero =>
    intro l₁ l₂ hlen h₁ h₂
    match l₁, l₂ with
    | [], [] => simp [mergeSortedGo]
    | [], y :: ys => simp at hlen
    | x :: xs, _ => simp at hlen
  | succ n ih =>
    intro l₁ l₂ hlen h₁ h₂
    match l₁, l₂ with
    | [], o => simpa [mergeSortedGo] using h₂
    | x :: xs, [] => simpa [mergeSortedGo] using h₁
    | x :: xs, y :: ys =>
      rcases List.sorted_cons.mp h₁ with ⟨hxall, hxs⟩
      rcases List.sorted_cons.mp h₂ with ⟨hyall, hys⟩
      simp only [List.length_cons] at hlen
      by_cases hxy : strLt x y = true
      · have hxy' : x < y := strLt_iff.mp hxy
        simp only [mergeSortedGo, if_pos hxy]
        refine List.sorted_cons.mpr ⟨?_, ?_⟩
        · intro b hb
          rcases (mem_mergeSortedGo b n xs (y :: ys)).mp hb with h | h
          · exact hxall b h
          · rcases List.mem_cons.mp h with rfl | h
            · exact hxy'
            · exact lt_trans hxy' (hyall b h)
        · exact ih xs (y :: ys) (by simp only [List.length_cons]; omega) hxs h₂
      · by_cases hyx : strLt y x = true
        · have hyx' : y < x := strLt_iff.mp hyx
          simp only [mergeSortedGo, if_neg hxy, if_pos hyx]
          refine List.sorted_cons.mpr ⟨?_, ?_⟩
          · intro b hb
            rcases (mem_mergeSortedGo b n (x :: xs) ys).mp hb with h | h
            · rcases List.mem_cons.mp h with rfl | h
              · exact hyx'
              · exact lt_trans hyx' (hxall b h)
            · exact hyall b h
          · exact ih (x :: xs) ys (by simp only [List.length_cons]; omega) h₁ hys
        · have hx : x = y := not_strLt_not_strGt_eq hxy hyx
          subst hx
          simp only [mergeSortedGo, if_neg hxy, if_neg hyx]
          refine List.sorted_cons.mpr ⟨?_, ?_⟩
          · intro b hb
            rcases (mem_mergeSortedGo b n xs ys).mp hb with h | h
            · exact hxall b h
            · exact hyall b h
          · exact ih xs ys (by omega) hxs hys

theorem sorted_mergeSorted {l₁ l₂ : List String}
    (h₁ : l₁.Sorted (· < ·)) (h₂ : l₂.Sorted (· < ·)) :
    (mergeSorted l₁ l₂).Sorted (· < ·) :=
  sorted_mergeSortedGo _ l₁ l₂ le_rfl h₁ h₂

/-- Two strictly sorted lists with the same members are equal. -/
theorem sorted_eq_of_mem_iff {l₁ l₂ : List String}
    (h₁ : l₁.Sorted (· < ·)) (h₂ : l₂.Sorted (· < ·))
    (h : ∀ a, a ∈ l₁ ↔ a ∈ l₂) : l₁ = l₂ := by
  have : IsAntisymm String (· < ·) :=
    ⟨fun a b hab hba => absurd hba (lt_asymm hab)⟩
  exact List.eq_of_perm_of_sorted
    ((List.perm_ext_iff_of_nodup h₁.nodup h₂.nodup).mpr h) h₁ h₂

theorem mergeSorted_comm {l₁ l₂ : List String}
    (h₁ : l₁.Sorted (· < ·)) (h₂ : l₂.Sorted (· < ·)) :
    mergeSorted l₁ l₂ = mergeSorted l₂ l₁ :=
  sorted_eq_of_mem_iff (sorted_mergeSorted h₁ h₂) (sorted_mergeSorted h₂ h₁)
    (fun a => by simp only [mem_mergeSorted]; tauto)

theorem mergeSorted_assoc {l₁ l₂ l₃ : List String}
    (h₁ : l₁.Sorted (· < ·)) (h₂ : l₂.Sorted (· < ·))
    (h₃ : l₃.Sorted (· < ·)) :
    mergeSorted (mergeSorted l₁ l₂) l₃ = mergeSorted l₁ (mergeSorted l₂ l₃) :=
  sorted_eq_of_mem_iff (sorted_mergeSorted (sorted_mergeSorted h₁ h₂) h₃)
    (sorted_mergeSorted h₁ (sorted_mergeSorted h₂ h₃))
    (fun a => by simp only [mem_mergeSorted]; tauto)

theorem mergeSorted_self {l : List String} (h : l.Sorted (· < ·)) :
    mergeSorted l l = l :=
  sorted_eq_of_mem_iff (sorted_mergeSorted h h) h
    (fun a => by simp only [mem_mergeSorted]; tauto)

/-- `AttributeMask` from node_ref.rs: `All`, `Dynamic` (growable sorted Vec
of attribute names) or `Static` (fixed sorted slice of attribute names). -/
inductive AttributeMask where
  | All
  | Dynamic (attrs : List String)
  | Static (attrs : List String)
deriving DecidableEq, Repr

/-- Rust `slice::binary_search` (as used by `contains_attribute`): the
left/right bisection loop.  The fuel is structural for kernel evaluation;
the interval shrinks every round, so `len + 1` rounds always suffice. -/
def bsearchGo (l : List String) (k : String) : Nat → Nat → Nat → Bool
  | 0, _, _ => false
  | fuel + 1, lo, hi =>
    if lo < hi then
      let mid := (lo + hi) / 2
      match l.get? mid with
      | none => false
      | some v =>
        if strLt v k then bsearchGo l k fuel (mid + 1) hi
        else if strLt k v then bsearchGo l k fuel lo mid
        else true
    else false

def binarySearchContains (l : List String) (k : String) : Bool :=
  bsearchGo l k (l.length + 1) 0 l.length

/-- `AttributeMask::contains_attribute` (node_ref.rs): `All` contains every
attribute; the list variants binary-search their sorted list. -/
def AttributeMask.contains_attribute : AttributeMask → String → Bool
  | .All, _ => true
  | .Dynamic l, attr => binarySearchContains l attr
  | .Static l, attr => binarySearchContains l attr

/-- `AttributeMask::union` (node_ref.rs), arm by arm: any operand `All`
falls into the `_ => All` arm; every other combination merges the two
sorted lists and the result is always `Dynamic` — including the
`Static`/`Static` case.  (`verify()` is a debug assertion with no effect
on the returned value.) -/
def AttributeMask.union : AttributeMask → AttributeMask → AttributeMask
  | .Dynamic s, .Dynamic o => .Dynamic (mergeSorted s o)
  | .Static s, .Dynamic o => .Dynamic (mergeSorted s o)
  | .Dynamic s, .Static o => .Dynamic (mergeSorted s o)
  | .Static s, .Static o => .Dynamic (mergeSorted s o)
  | _, _ => .All

/-- The inner loop of `overlaps_iter` in `AttributeMask::overlaps`
(node_ref.rs): `o` is the element currently pulled from the other
iterator, `os` its remainder, and the first list is what remains of the
self iterator.  While `o < s` the other iterator advances (returning false
when it runs dry); on `o == s` the intersection is found; otherwise the
self iterator advances.  Fuel is structural for kernel evaluation and one
element is consumed per round. -/
def overlapsGo : Nat → List String → String → List String → Bool
  | 0, _, _, _ => false
  | _ + 1, [], _, _ => false
  | fuel + 1, s :: ss, o, os =>
    if strLt o s then
      match os with
      | [] => false
      | o2 :: os2 => overlapsGo fuel (s :: ss) o2 os2
    else if o = s then true
    else overlapsGo fuel ss o os

/-- `overlaps_iter` (node_ref.rs): false when the other iterator is empty,
else run the merge-intersection loop. -/
def overlapsIter (selfL otherL : List String) : Bool :=
  match otherL with
  | [] => false
  | o :: os => overlapsGo (selfL.length + os.length + 1) selfL o os

/-- `AttributeMask::overlaps` (node_ref.rs), arm by arm; note that both
mixed `Dynamic`/`Static` arms pass the `Dynamic` list as the self
iterator. -/
def AttributeMask.overlaps : AttributeMask → AttributeMask → Bool
  | .All, .All => true
  | .All, .Dynamic v => !v.isEmpty
  | .All, .Static s => !s.isEmpty
  | .Dynamic v, .All => !v.isEmpty
  | .Static s, .All => !s.isEmpty
  | .Dynamic v1, .Dynamic v2 => overlapsIter v1 v2
  | .Dynamic v, .Static s => overlapsIter v s
  | .Static s, .Dynamic v => overlapsIter v s
  | .Static s1, .Static s2 => overlapsIter s1 s2

/-- The set of attribute names a mask stands for (`All` = every name). -/
def AttributeMask.memSem : AttributeMask → String → Prop
  | .All, _ => True
  | .Dynamic l, a => a ∈ l
  | .Static l, a => a ∈ l

/-- The documented representation invariant (§4.2 / `verify()` in
node_ref.rs): the list variants hold strictly increasing lists. -/
def AttributeMask.WF : AttributeMask → Prop
  | .All => True
  | .Dynamic l => sortedStr l = true
  | .Static l => sortedStr l = true

instance (A : AttributeMask) : Decidable A.WF := by
  cases A <;> simp only [AttributeMask.WF] <;> infer_instance

theorem attributeMask_wf_dynamic {l : List String}
    (h : (AttributeMask.Dynamic l).WF) : l.Sorted (· < ·) :=
  (sortedStr_iff l).mp h

theorem attributeMask_wf_static {l : List String}
    (h : (AttributeMask.Static l).WF) : l.Sorted (· < ·) :=
  (sortedStr_iff l).mp h

/-- Mask non-emptiness: `All` matches everything, list variants are
non-empty when their list is. -/
def AttributeMask.nonempty : AttributeMask → Bool
  | .All => true
  | .Dynamic l => !l.isEmpty
  | .Static l => !l.isEmpty

theorem overlapsGo_iff :
    ∀ (fuel : Nat) (s : List String) (o : String) (os : List String),
      s.length + os.length < fuel →
      s.Sorted (· < ·) → (o :: os).Sorted (· < ·) →
      (overlapsGo fuel s o os = true ↔ ∃ a, a ∈ s ∧ a ∈ o :: os) := by
  intro fuel
  induction fuel with
  | zero =>
    intro s o os hlen _ _
    omega
  | succ n ih =>
    intro s o os hlen hs ho
    match s with
    | [] => simp [overlapsGo]
    | shd :: ss =>
      rcases List.sorted_cons.mp hs with ⟨hsall, hss⟩
      rcases List.sorted_cons.mp ho with ⟨hoall, hos⟩
      by_cases hlt : strLt o shd = true
      · have hlt' : o < shd := strLt_iff.mp hlt
        have hnotmem : o ∉ shd :: ss := by
          intro hmem
          rcases List.mem_cons.mp hmem with rfl | hmem
          · exact absurd hlt' (lt_irrefl _)
          · exact absurd (lt_trans hlt' (hsall o hmem)) (lt_irrefl _)
        match os with
        | [] =>
          simp only [overlapsGo, if_pos hlt]
          constructor
          · intro h; exact absurd h (by simp)
          · rintro ⟨a, ha, hb⟩
            rcases List.mem_cons.mp hb with rfl | hb
            · exact absurd ha hnotmem
            · simp at hb
        | o2 :: os2 =>
          simp only [overlapsGo, if_pos hlt]
          have hrec := ih (shd :: ss) o2 os2
            (by simp only [List.length_cons] at hlen ⊢; omega) hs hos
          rw [hrec]
          constructor
          · rintro ⟨a, ha, hb⟩
            exact ⟨a, ha, List.mem_cons_of_mem o hb⟩
          · rintro ⟨a, ha, hb⟩
            rcases List.mem_cons.mp hb with rfl | hb
            · exact absurd ha hnotmem
            · exact ⟨a, ha, hb⟩
      · by_cases heq : o = shd
        · subst heq
          simp only [overlapsGo, if_neg hlt, if_pos rfl]
          exact ⟨fun _ => ⟨o, List.mem_cons_self o ss, List.mem_cons_self o os⟩,
            fun _ => rfl⟩
        · have hgt : shd < o :=
            lt_of_le_of_ne (le_of_not_lt (mt strLt_iff.mpr hlt))
              (fun h => heq h.symm)
          have hnotmem : shd ∉ o :: os := by
            intro hmem
            rcases List.mem_cons.mp hmem with rfl | hmem
            · exact absurd hgt (lt_irrefl _)
            · exact absurd (lt_trans hgt (hoall shd hmem)) (lt_irrefl _)
          simp only [overlapsGo, if_neg hlt, if_neg heq]
          have hrec := ih ss o os
            (by simp only [List.length_cons] at hlen; omega) hss ho
          rw [hrec]
          constructor
          · rintro ⟨a, ha, hb⟩
            exact ⟨a, List.mem_cons_of_mem shd ha, hb⟩
          · rintro ⟨a, ha, hb⟩
            rcases List.mem_cons.mp ha with rfl | ha
            · exact absurd hb hnotmem
            · exact ⟨a, ha, hb⟩

theorem overlapsIter_iff {s o : List String}
    (hs : s.Sorted (· < ·)) (ho : o.Sorted (· < ·)) :
    (overlapsIter s o = true ↔ ∃ a, a ∈ s ∧ a ∈ o) := by
  match o with
  | [] => simp [overlapsIter]
  | o1 :: os =>
    exact overlapsGo_iff _ s o1 os (by omega) hs ho

theorem attributeMask_overlaps_iff (A B : AttributeMask)
    (hA : A.WF) (hB : B.WF) :
    (A.overlaps B = true ↔ ∃ a, A.memSem a ∧ B.memSem a) := by
  cases A with
  | All =>
    cases B with
    | All =>
      simp only [AttributeMask.overlaps, AttributeMask.memSem]
      constructor
      · intro _
        exact ⟨"", trivial, trivial⟩
      · intro _
        trivial
    | Dynamic v => cases v <;> simp [AttributeMask.overlaps, AttributeMask.memSem]
    | Static v => cases v <;> simp [AttributeMask.overlaps, AttributeMask.memSem]
  | Dynamic v1 =>
    cases B with
    | All => cases v1 <;> simp [AttributeMask.overlaps, AttributeMask.memSem]
    | Dynamic v2 =>
      simp only [AttributeMask.overlaps, AttributeMask.memSem]
      exact overlapsIter_iff (attributeMask_wf_dynamic hA)
        (attributeMask_wf_dynamic hB)
    | Static v2 =>
      simp only [AttributeMask.overlaps, AttributeMask.memSem]
      exact overlapsIter_iff (attributeMask_wf_dynamic hA)
        (attributeMask_wf_static hB)
  | Static v1 =>
    cases B with
    | All => cases v1 <;> simp [AttributeMask.overlaps, AttributeMask.memSem]
    | Dynamic v2 =>
      simp only [AttributeMask.overlaps, AttributeMask.memSem]
      rw [overlapsIter_iff (attributeMask_wf_dynamic hB)
        (attributeMask_wf_static hA)]
      exact ⟨fun ⟨a, h1, h2⟩ => ⟨a, h2, h1⟩, fun ⟨a, h1, h2⟩ => ⟨a, h2, h1⟩⟩
    | Static v2 =>
      simp only [AttributeMask.overlaps, AttributeMask.memSem]
      exact overlapsIter_iff (attributeMask_wf_static hA)
        (attributeMask_wf_static hB)

theorem attributeMask_memSem_union (A B : AttributeMask) (a : String) :
    (A.union B).memSem a ↔ A.memSem a ∨ B.memSem a := by
  cases A <;> cases B <;>
    simp [AttributeMask.union, AttributeMask.memSem, mem_mergeSorted]

theorem attributeMask_wf_union {A B : AttributeMask}
    (hA : A.WF) (hB : B.WF) : (A.union B).WF := by
  cases A <;> cases B <;>
    simp only [AttributeMask.union, AttributeMask.WF, sortedStr_iff] at * <;>
    exact sorted_mergeSorted hA hB

theorem attributeMask_nonempty_iff (A : AttributeMask) :
    A.nonempty = true ↔ ∃ a, A.memSem a := by
  cases A with
  | All =>
    simp only [AttributeMask.nonempty, AttributeMask.memSem]
    constructor
    · intro _
      exact ⟨"", trivial⟩
    · intro _
      trivial
  | Dynamic l => cases l <;> simp [AttributeMask.nonempty, AttributeMask.memSem]
  | Static l => cases l <;> simp [AttributeMask.nonempty, AttributeMask.memSem]

/-- `NodeMask` from node_ref.rs: an attribute mask plus booleans for the
tag, namespace and text facets.  The source field `namespace` is called
`nspace` here (`namespace` is a Lean keyword); the source spelling
`attritutes` is kept. -/
structure NodeMask where
  attritutes : AttributeMask
  tag : Bool
  nspace : Bool
  text : Bool
deriving DecidableEq, Repr

/-- `NodeMask::NONE` (node_ref.rs). -/
def NodeMask.NONE : NodeMask := ⟨.Static [], false, false, false⟩

/-- `NodeMask::ALL` (node_ref.rs). -/
def NodeMask.ALL : NodeMask := ⟨.All, true, true, true⟩

/-- `NodeMask::overlaps` (node_ref.rs). -/
def NodeMask.overlaps (m o : NodeMask) : Bool :=
  (m.tag && o.tag) || (m.nspace && o.nspace)
    || m.attritutes.overlaps o.attritutes || (m.text && o.text)

/-- `NodeMask::union` (node_ref.rs): pointwise OR plus attribute union. -/
def NodeMask.union (m o : NodeMask) : NodeMask :=
  ⟨m.attritutes.union o.attritutes, m.tag || o.tag,
    m.nspace || o.nspace, m.text || o.text⟩

def NodeMask.WF (m : NodeMask) : Prop := m.attritutes.WF

instance (m : NodeMask) : Decidable m.WF := by
  unfold NodeMask.WF; infer_instance

/-- A node mask is non-empty when some boolean facet is set or the
attribute mask is non-empty. -/
def NodeMask.nonempty (m : NodeMask) : Bool :=
  m.tag || m.nspace || m.text || m.attritutes.nonempty

/-- C3 (counterexample): `union` is not idempotent at the value level: a
`Static` mask unioned with itself comes back as a `Dynamic` mask, which the
derived equality on `AttributeMask` distinguishes from the `Static`
original. -/
theorem attributeMask_union_not_idempotent :
    AttributeMask.union (.Static ["a"]) (.Static ["a"]) ≠
      AttributeMask.Static ["a"] := by
  decide

/-- C3 (amended): for well-formed (sorted) masks, `AttributeMask::union`
and `NodeMask::union` are associative and commutative, and idempotent up to
representation: `union(A, A)` always stands for the same attribute set as
`A`, and equals `A` whenever `A`'s attribute mask is not `Static` (a
`Static` mask comes back as the equivalent `Dynamic` mask with the same
list). -/
theorem mask_union_assoc_comm_amended :
    (∀ A B C : AttributeMask, A.WF → B.WF → C.WF →
       (A.union B).union C = A.union (B.union C)) ∧
    (∀ A B : AttributeMask, A.WF → B.WF → A.union B = B.union A) ∧
    AttributeMask.union .All .All = .All ∧
    (∀ l : List String, sortedStr l = true →
       AttributeMask.union (.Dynamic l) (.Dynamic l) = .Dynamic l ∧
       AttributeMask.union (.Static l) (.Static l) = .Dynamic l) ∧
    (∀ A : AttributeMask, ∀ a : String,
       (A.union A).memSem a ↔ A.memSem a) ∧
    (∀ M O P : NodeMask, M.WF → O.WF → P.WF →
       (M.union O).union P = M.union (O.union P)) ∧
    (∀ M O : NodeMask, M.WF → O.WF → M.union O = O.union M) ∧
    (∀ M : NodeMask, M.WF →
       (∃ l, M.attritutes = .Static l) ∨ M.union M = M) := by
  have hassoc : ∀ A B C : AttributeMask, A.WF → B.WF → C.WF →
      (A.union B).union C = A.union (B.union C) := by
    intro A B C hA hB hC
    cases A <;> cases B <;> cases C <;>
      simp only [AttributeMask.union, AttributeMask.WF, sortedStr_iff] at * <;>
      rw [mergeSorted_assoc hA hB hC]
  have hcomm : ∀ A B : AttributeMask, A.WF → B.WF → A.union B = B.union A := by
    intro A B hA hB
    cases A <;> cases B <;>
      simp only [AttributeMask.union, AttributeMask.WF, sortedStr_iff] at * <;>
      rw [mergeSorted_comm hA hB]
  refine ⟨hassoc, hcomm, rfl, ?_, ?_, ?_, ?_, ?_⟩
  · intro l hl
    have hl2 : l.Sorted (· < ·) := (sortedStr_iff l).mp hl
    constructor <;>
      simp only [AttributeMask.union, mergeSorted_self hl2]
  · intro A a
    rw [attributeMask_memSem_union]
    tauto
  · intro M O P hM hO hP
    simp only [NodeMask.union, NodeMask.mk.injEq, Bool.or_assoc]
    exact ⟨hassoc _ _ _ hM hO hP, trivial, trivial, trivial⟩
  · intro M O hM hO
    simp only [NodeMask.union, NodeMask.mk.injEq]
    exact ⟨hcomm _ _ hM hO, Bool.or_comm _ _, Bool.or_comm _ _,
      Bool.or_comm _ _⟩
  · intro M hM
    match hrep : M.attritutes with
    | .Static l => exact Or.inl ⟨l, rfl⟩
    | .All =>
      refine Or.inr ?_
      cases M
      simp only at hrep
      simp [NodeMask.union, hrep, AttributeMask.union]
    | .Dynamic l =>
      refine Or.inr ?_
      have hl : l.Sorted (· < ·) := by
        have h2 := hM
        unfold NodeMask.WF at h2
        rw [hrep] at h2
        exact attributeMask_wf_dynamic h2
      cases M
      simp only at hrep
      simp [NodeMask.union, hrep, AttributeMask.union, mergeSorted_self hl]

/-- Witness for the amended C3 theorem: commutativity at two concrete
masks, and idempotence of a concrete non-Static mask. -/
theorem mask_union_assoc_comm_amended_witness :
    AttributeMask.union (.Static ["a"]) (.Dynamic ["b"]) =
      AttributeMask.union (.Dynamic ["b"]) (.Static ["a"]) ∧
    AttributeMask.union (.Dynamic ["a"]) (.Dynamic ["a"]) = .Dynamic ["a"] :=
  ⟨mask_union_assoc_comm_amended.2.1 _ _ (by decide) (by decide),
    (mask_union_assoc_comm_amended.2.2.2.1 ["a"] (by decide)).1⟩

/-- C5: `overlaps` is symmetric for both mask types, a non-empty mask
overlaps itself, and a non-empty mask overlaps its union with anything
(all for well-formed, i.e. sorted, masks). -/
theorem mask_overlaps_props :
    (∀ A B : AttributeMask, A.WF → B.WF → A.overlaps B = B.overlaps A) ∧
    (∀ A : AttributeMask, A.WF → A.nonempty = true → A.overlaps A = true) ∧
    (∀ A B : AttributeMask, A.WF → B.WF → A.nonempty = true →
       A.overlaps (A.union B) = true) ∧
    (∀ M O : NodeMask, M.WF → O.WF → M.overlaps O = O.overlaps M) ∧
    (∀ M : NodeMask, M.WF → M.nonempty = true → M.overlaps M = true) ∧
    (∀ M O : NodeMask, M.WF → O.WF → M.nonempty = true →
       M.overlaps (M.union O) = true) := by
  have hsymm : ∀ A B : AttributeMask, A.WF → B.WF →
      A.overlaps B = B.overlaps A := by
    intro A B hA hB
    rw [Bool.eq_iff_iff, attributeMask_overlaps_iff A B hA hB,
      attributeMask_overlaps_iff B A hB hA]
    exact ⟨fun ⟨a, h1, h2⟩ => ⟨a, h2, h1⟩, fun ⟨a, h1, h2⟩ => ⟨a, h2, h1⟩⟩
  have hself : ∀ A : AttributeMask, A.WF → A.nonempty = true →
      A.overlaps A = true := by
    intro A hA hne
    rw [attributeMask_overlaps_iff A A hA hA]
    obtain ⟨a, ha⟩ := (attributeMask_nonempty_iff A).mp hne
    exact ⟨a, ha, ha⟩
  have hunion : ∀ A B : AttributeMask, A.WF → B.WF → A.nonempty = true →
      A.overlaps (A.union B) = true := by
    intro A B hA hB hne
    rw [attributeMask_overlaps_iff A (A.union B) hA
      (attributeMask_wf_union hA hB)]
    obtain ⟨a, ha⟩ := (attributeMask_nonempty_iff A).mp hne
    exact ⟨a, ha, (attributeMask_memSem_union A B a).mpr (Or.inl ha)⟩
  refine ⟨hsymm, hself, hunion, ?_, ?_, ?_⟩
  · intro M O hM hO
    simp only [NodeMask.overlaps]
    rw [Bool.and_comm M.tag, Bool.and_comm M.nspace, Bool.and_comm M.text,
      hsymm _ _ hM hO]
  · intro M hM hne
    simp only [NodeMask.nonempty, Bool.or_eq_true] at hne
    simp only [NodeMask.overlaps, Bool.and_self]
    rcases hne with ((ht | hn) | hx) | hattr
    · simp [ht]
    · simp [hn]
    · simp [hx]
    · simp [hself _ hM hattr]
  · intro M O hM hO hne
    simp only [NodeMask.nonempty, Bool.or_eq_true] at hne
    simp only [NodeMask.overlaps, NodeMask.union]
    rcases hne with ((ht | hn) | hx) | hattr
    · simp [ht]
    · simp [hn]
    · simp [hx]
    · simp [hunion _ O.attritutes hM hO hattr]

/-- Witness for the C5 theorem: symmetry and the union-overlap at concrete
masks. -/
theorem mask_overlaps_props_witness :
    AttributeMask.overlaps (.Static ["a"])
      (AttributeMask.union (.Static ["a"]) (.Dynamic ["b"])) = true ∧
    NodeMask.overlaps ⟨.Static ["a"], true, false, false⟩
        ⟨.Dynamic ["a", "b"], false, true, false⟩ =
      NodeMask.overlaps ⟨.Dynamic ["a", "b"], false, true, false⟩
        ⟨.Static ["a"], true, false, false⟩ :=
  ⟨mask_overlaps_props.2.2.1 _ _ (by decide) (by decide) (by decide),
    mask_overlaps_props.2.2.2.1 _ _ (by decide) (by decide)⟩

/-- An attribute as `NodeView` exposes it: a name and a string value (the
consumers in focus.rs read the value as a string, via `parse` and
`trim`). -/
structure VAttribute where
  name : String
  value : String
deriving DecidableEq, Repr

/-- The node payload `NodeView` dispatches on via `el()` / `txt()`
(node_ref.rs): an element with tag, optional namespace and attribute list,
a text node, or a placeholder.  Component nodes are resolved to their root
node before the view is built (`NodeView::new`), so they do not appear. -/
inductive VNode where
  | element (tag : String) (nspace : Option String) (attrs : List VAttribute)
  | text (value : String)
  | placeholder
deriving DecidableEq, Repr

/-- `self.el().map(|el| el.tag)` — the tag when the node is an element. -/
def VNode.elTag : VNode → Option String
  | .element t _ _ => some t
  | _ => none

/-- `self.el().map(|el| el.namespace).flatten()`. -/
def VNode.elNamespace : VNode → Option String
  | .element _ ns _ => ns
  | _ => none

/-- `self.el().map(|el| el.attributes).unwrap_or_default()`. -/
def VNode.elAttrs : VNode → List VAttribute
  | .element _ _ attrs => attrs
  | _ => []

/-- `self.txt().map(|txt| txt.text)`. -/
def VNode.txtValue : VNode → Option String
  | .text s => some s
  | _ => none

/-- `NodeView` (node_ref.rs): a node together with the mask restricting
what a pass may observe of it. -/
structure NodeView where
  inner : VNode
  mask : NodeMask
deriving Repr

/-- `NodeView::tag` (node_ref.rs). -/
def NodeView.tag (v : NodeView) : Option String :=
  if v.mask.tag then v.inner.elTag else none

/-- `NodeView::namespace` (node_ref.rs); named nspace as for the mask field. -/
def NodeView.nspace (v : NodeView) : Option String :=
  if v.mask.nspace then v.inner.elNamespace else none

/-- `NodeView::text` (node_ref.rs). -/
def NodeView.text (v : NodeView) : Option String :=
  if v.mask.text then v.inner.txtValue else none

/-- `NodeView::attributes` (node_ref.rs): the node's attributes filtered by
`contains_attribute` of the view's attribute mask. -/
def NodeView.attributes (v : NodeView) : List VAttribute :=
  v.inner.elAttrs.filter (fun a => v.mask.attritutes.contains_attribute a.name)

/-- C10: a `NodeView` built with mask M exposes only the facets M watches:
`tag`, `namespace` and `text` are `None` whenever the corresponding mask
boolean is false; `attributes` yields exactly the node's attributes whose
names the attribute mask contains; and two nodes agreeing on every facet M
watches are indistinguishable through views with mask M. -/
theorem nodeView_masking :
    (∀ v : NodeView, v.mask.tag = false → v.tag = none) ∧
    (∀ v : NodeView, v.mask.nspace = false → v.nspace = none) ∧
    (∀ v : NodeView, v.mask.text = false → v.text = none) ∧
    (∀ (v : NodeView) (a : VAttribute),
       a ∈ v.attributes ↔
         a ∈ v.inner.elAttrs ∧
           v.mask.attritutes.contains_attribute a.name = true) ∧
    (∀ (m : NodeMask) (n₁ n₂ : VNode),
       (m.tag = true → n₁.elTag = n₂.elTag) →
       (m.nspace = true → n₁.elNamespace = n₂.elNamespace) →
       (m.text = true → n₁.txtValue = n₂.txtValue) →
       n₁.elAttrs.filter (fun a => m.attritutes.contains_attribute a.name) =
         n₂.elAttrs.filter (fun a => m.attritutes.contains_attribute a.name) →
       (NodeView.mk n₁ m).tag = (NodeView.mk n₂ m).tag ∧
       (NodeView.mk n₁ m).nspace = (NodeView.mk n₂ m).nspace ∧
       (NodeView.mk n₁ m).text = (NodeView.mk n₂ m).text ∧
       (NodeView.mk n₁ m).attributes = (NodeView.mk n₂ m).attributes) := by
  refine ⟨?_, ?_, ?_, ?_, ?_⟩
  · intro v h
    simp [NodeView.tag, h]
  · intro v h
    simp [NodeView.nspace, h]
  · intro v h
    simp [NodeView.text, h]
  · intro v a
    simp [NodeView.attributes, List.mem_filter]
  · intro m n₁ n₂ h1 h2 h3 h4
    refine ⟨?_, ?_, ?_, ?_⟩
    · cases htag : m.tag with
      | false => simp [NodeView.tag, htag]
      | true => simp [NodeView.tag, htag, h1 htag]
    · cases hns : m.nspace with
      | false => simp [NodeView.nspace, hns]
      | true => simp [NodeView.nspace, hns, h2 hns]
    · cases htx : m.text with
      | false => simp [NodeView.text, htx]
      | true => simp [NodeView.text, htx, h3 htx]
    · simpa [NodeView.attributes] using h4

/-- Witness for the C10 theorem: concrete views through an empty mask. -/
theorem nodeView_masking_witness :
    (NodeView.mk (.element "div" none [⟨"id", "x"⟩]) NodeMask.NONE).tag =
      none ∧
    (NodeView.mk (.text "hello") NodeMask.NONE).text = none :=
  ⟨nodeView_masking.1 _ rfl, nodeView_masking.2.2.1 _ rfl⟩

theorem bsearchGo_iff :
    ∀ (fuel : Nat) (l : List String) (k : String) (lo hi : Nat),
      hi ≤ l.length → hi - lo < fuel → l.Sorted (· < ·) →
      (∀ i (h : i < l.length), i < lo → l.get ⟨i, h⟩ < k) →
      (∀ i (h : i < l.length), hi ≤ i → k < l.get ⟨i, h⟩) →
      (bsearchGo l k fuel lo hi = true ↔ k ∈ l) := by
  intro fuel
  induction fuel with
  | zero =>
    intro l k lo hi hhi hfuel hs hleft hright
    omega
  | succ n ih =>
    intro l k lo hi hhi hfuel hs hleft hright
    by_cases hlh : lo < hi
    · have hmidlt : (lo + hi) / 2 < l.length := by omega
      have hget : l.get? ((lo + hi) / 2) = some (l.get ⟨(lo + hi) / 2, hmidlt⟩) :=
        List.get?_eq_get hmidlt
      simp only [bsearchGo, if_pos hlh, hget]
      by_cases h1 : strLt (l.get ⟨(lo + hi) / 2, hmidlt⟩) k = true
      · simp only [if_pos h1]
        refine ih l k ((lo + hi) / 2 + 1) hi hhi (by omega) hs ?_ hright
        intro i h hi2
        rcases Nat.lt_or_ge i lo with hc | hc
        · exact hleft i h hc
        · have hle : i ≤ (lo + hi) / 2 := by omega
          rcases Nat.eq_or_lt_of_le hle with heq | hlt2
          · subst heq
            exact strLt_iff.mp h1
          · exact lt_trans
              (hs.rel_get_of_lt (Fin.mk_lt_mk.mpr hlt2))
              (strLt_iff.mp h1)
      · by_cases h2 : strLt k (l.get ⟨(lo + hi) / 2, hmidlt⟩) = true
        · simp only [if_neg h1, if_pos h2]
          refine ih l k lo ((lo + hi) / 2) (by omega) (by omega) hs hleft ?_
          intro i h hge
          rcases Nat.lt_or_ge i hi with hc | hc
          · rcases Nat.eq_or_lt_of_le hge with heq | hlt2
            · subst heq
              exact strLt_iff.mp h2
            · exact lt_trans (strLt_iff.mp h2)
                (hs.rel_get_of_lt (Fin.mk_lt_mk.mpr hlt2))
          · exact hright i h hc
        · have hveq : l.get ⟨(lo + hi) / 2, hmidlt⟩ = k :=
            not_strLt_not_strGt_eq h1 h2
          simp only [if_neg h1, if_neg h2, true_iff]
          exact hveq ▸ List.get_mem l _ _
    · simp only [bsearchGo, if_neg hlh, Bool.false_eq_true, false_iff]
      intro hmem
      obtain ⟨idx, hidx⟩ := List.mem_iff_get.mp hmem
      rcases Nat.lt_or_ge idx.1 lo with hc | hc
      · have hlt3 := hleft idx.1 idx.2 hc
        rw [hidx] at hlt3
        exact lt_irrefl k hlt3
      · have hlt3 := hright idx.1 idx.2 (by omega)
        rw [hidx] at hlt3
        exact lt_irrefl k hlt3

/-- `slice::binary_search(&x).is_ok()` on a sorted list is membership. -/
theorem binarySearchContains_iff {l : List String}
    (hl : l.Sorted (· < ·)) (k : String) :
    binarySearchContains l k = true ↔ k ∈ l := by
  refine bsearchGo_iff _ l k 0 l.length le_rfl (by omega) hl ?_ ?_
  · intro i h hi0
    exact absurd hi0 (Nat.not_lt_zero i)
  · intro i h hge
    exact absurd h (by omega)

/-- Model of `str::trim` (drop leading and trailing whitespace), defined on
the character list so the kernel can evaluate it.  The values compared in
focus.rs are "true"-like ASCII literals, for which this agrees with Rust's
Unicode-aware trim. -/
def strTrim (s : String) : String :=
  ⟨(((s.data.dropWhile Char.isWhitespace).reverse).dropWhile
      Char.isWhitespace).reverse⟩

/-- Rust `str::parse::<i32>` as used on the tabindex value: an optional
sign, then one or more ASCII digits, no other characters, and the value
must fit in i32 (otherwise `Err`, here `none`). -/
def parseI32 (s : String) : Option Int :=
  let cs := s.data
  let signDigits : Int × List Char :=
    match cs with
    | '-' :: rest => (-1, rest)
    | '+' :: rest => (1, rest)
    | _ => (1, cs)
  let digits := signDigits.2
  if digits.isEmpty then none
  else if digits.all Char.isDigit then
    let mag : Int :=
      digits.foldl (fun acc c => acc * 10 + ((c.toNat - 48 : Nat) : Int)) 0
    let v := signDigits.1 * mag
    if -(2 ^ 31) ≤ v ∧ v ≤ 2 ^ 31 - 1 then some v else none
  else none

/-- `Focus` state from focus.rs. -/
structure Focus where
  pass_focus : Bool
  level : FocusLevel
deriving DecidableEq, Repr

/-- `Default` for `Focus`: both fields take their default. -/
def Focus.default : Focus := ⟨false, .Unfocusable⟩

/-- `FOCUS_EVENTS` (focus.rs): `sorted_str_slice!(["keydown", "keyup",
"keypress"])`, i.e. the sorted slice. -/
def FOCUS_EVENTS : List String := ["keydown", "keypress", "keyup"]

/-- `FOCUS_ATTRIBUTES` (focus.rs), sorted. -/
def FOCUS_ATTRIBUTES : List String := ["dioxus-prevent-default", "tabindex"]

/-- `Focus::NODE_MASK` (focus.rs): watches the two focus attributes.  The
listener facet (`with_listeners`) is not a boolean of this vintage of
`NodeMask`; the listener set reaches `reduce` through `FocusNodeView`. -/
def Focus.NODE_MASK : NodeMask := ⟨.Static FOCUS_ATTRIBUTES, false, false, false⟩

/-- The view `Focus::reduce` receives.  The `listeners` component is
modelled from the spec: focus.rs calls `node.listeners()`, an accessor this
vintage of `NodeView` (node_ref.rs) does not have; per §3/§4.5 the
listener-set facet is the set of event names the node listens for. -/
structure FocusNodeView where
  view : NodeView
  listeners : List String
deriving Repr

/-- Build the view `reduce` sees for a node: the node masked by
`Focus::NODE_MASK`, plus its listener set. -/
def focusNodeView (n : VNode) (listeners : List String) : FocusNodeView :=
  ⟨⟨n, Focus.NODE_MASK⟩, listeners⟩

/-- `Focus::reduce` (focus.rs).  Returns `none` where the source panics:
for a positive parsed tabindex, `NonZeroU16::new(index as u16).unwrap()`
panics when the i32 truncates to 0 mod 2^16.  Otherwise returns the new
state and the changed flag (`*self != new`; on an unchanged state the
source leaves `*self` alone, which equals `new`). -/
def Focus.reduce (self : Focus) (node : FocusNodeView) :
    Option (Focus × Bool) :=
  let attrs := node.view.attributes
  let pass_focus : Bool :=
    !(attrs.any fun a =>
      a.name == "dioxus-prevent-default" && strTrim a.value == "true")
  let levelOpt : Option FocusLevel :=
    match attrs.find? (fun a => a.name == "tabindex") with
    | some a =>
      match parseI32 a.value with
      | some index =>
        if index < 0 then some .Unfocusable
        else if index = 0 then some .Focusable
        else
          let u := index.toNat % 65536
          if u = 0 then none else some (.Ordered u)
      | none => some .Unfocusable
    | none =>
      some (if node.listeners.any (fun l => binarySearchContains FOCUS_EVENTS l)
        then .Focusable else .Unfocusable)
  levelOpt.map fun level =>
    let new : Focus := ⟨pass_focus, level⟩
    if self ≠ new then (new, true) else (self, false)

theorem reduce_if_level (self : Focus) (pf : Bool) (lv : FocusLevel) :
    (if self ≠ (⟨pf, lv⟩ : Focus) then ((⟨pf, lv⟩ : Focus), true)
      else (self, false)).1.level = lv := by
  rcases eq_or_ne self ⟨pf, lv⟩ with he | hne
  · simp [he]
  · simp [hne]

/-- The level component of `reduce`'s result, as a function of the view:
the panic (`none`) and the produced level, independent of the pass-focus
component and the changed flag. -/
theorem focus_reduce_map_level (self : Focus) (node : FocusNodeView) :
    (Focus.reduce self node).map (fun fc => fc.1.level) =
      (match node.view.attributes.find? (fun a => a.name == "tabindex") with
        | some a =>
          match parseI32 a.value with
          | some index =>
            if index < 0 then some FocusLevel.Unfocusable
            else if index = 0 then some FocusLevel.Focusable
            else if index.toNat % 65536 = 0 then none
            else some (FocusLevel.Ordered (index.toNat % 65536))
          | none => some FocusLevel.Unfocusable
        | none =>
          some (if node.listeners.any
              (fun l => binarySearchContains FOCUS_EVENTS l)
            then FocusLevel.Focusable else FocusLevel.Unfocusable)) := by
  unfold Focus.reduce
  cases hfind : node.view.attributes.find? (fun a => a.name == "tabindex") with
  | none =>
    simp only [hfind, Option.map, reduce_if_level]
  | some a =>
    cases hp : parseI32 a.value with
    | none => simp only [hfind, hp, Option.map, reduce_if_level]
    | some index =>
      by_cases hneg : index < 0
      · simp only [hfind, hp, if_pos hneg, Option.map, reduce_if_level]
      · by_cases hzero : index = 0
        · simp only [hfind, hp, if_neg hneg, if_pos hzero, Option.map,
            reduce_if_level]
        · by_cases hmod : index.toNat % 65536 = 0
          · simp only [hfind, hp, if_neg hneg, if_neg hzero, if_pos hmod,
              Option.map]
          · simp only [hfind, hp, if_neg hneg, if_neg hzero, if_neg hmod,
              Option.map, reduce_if_level]

theorem find_filter_eq {α : Type} (p q : α → Bool) (l : List α)
    (h : ∀ a, p a = true → q a = true) :
    (l.filter q).find? p = l.find? p := by
  induction l with
  | nil => rfl
  | cons x xs ih =>
    by_cases hq : q x = true
    · by_cases hp : p x = true
      · simp [List.filter_cons, hq, List.find?_cons, hp]
      · simp only [List.filter_cons, if_pos hq, List.find?_cons]
        rw [Bool.not_eq_true] at hp
        simp [hp, ih]
    · have hp : p x = false := by
        rcases Bool.eq_false_or_eq_true (p x) with htrue | hfalse
        · exact absurd (h x htrue) hq
        · exact hfalse
      simp [List.filter_cons, hq, List.find?_cons, hp, ih]

theorem reduce_if_level2 (self : Focus) (pf : Bool) (lv : FocusLevel) :
    (if self = (⟨pf, lv⟩ : Focus) then (self, false)
      else ((⟨pf, lv⟩ : Focus), true)).1.level = lv := by
  rcases eq_or_ne self ⟨pf, lv⟩ with he | hne
  · simp [he]
  · simp [hne]

/-- C2 (counterexample): `reduce` does not return without failure on every
tabindex value: "65536" parses to a positive i32, the `as u16` cast
truncates it to 0, and `NonZeroU16::new(0).unwrap()` panics (modelled as
`none`). -/
theorem focus_reduce_panics_at_65536 :
    Focus.reduce Focus.default
      (focusNodeView (.element "div" none [⟨"tabindex", "65536"⟩]) []) =
      none := by
  decide

/-- C2 (amended): the level computed by the focus pass's `reduce`:
a tabindex parsing to a negative integer, or failing to parse, yields
`Unfocusable`; 0 yields `Focusable`; a positive integer n yields
`Ordered(n mod 2^16)` — hence `Ordered(n)` exactly when n < 65536 — and
PANICS (returns `none`) when n is a positive multiple of 65536; with no
tabindex, the level is `Focusable` iff the listener set contains one of
keydown/keypress/keyup (the `FOCUS_EVENTS` binary search is membership),
else `Unfocusable`.  The first two conjuncts tie the view to the node: the
masked view preserves the tabindex lookup, and the event search is
membership in the three key events. -/
theorem focus_reduce_level_amended :
    (∀ l : String,
      binarySearchContains FOCUS_EVENTS l = true ↔ l ∈ FOCUS_EVENTS) ∧
    (∀ (n : VNode) (ls : List String),
      (focusNodeView n ls).view.attributes.find?
          (fun x => x.name == "tabindex") =
        n.elAttrs.find? (fun x => x.name == "tabindex")) ∧
    (∀ (self : Focus) (n : VNode) (ls : List String) (a : VAttribute),
      n.elAttrs.find? (fun x => x.name == "tabindex") = some a →
      (parseI32 a.value = none →
        (Focus.reduce self (focusNodeView n ls)).map (fun fc => fc.1.level) =
          some FocusLevel.Unfocusable) ∧
      (∀ i : Int, parseI32 a.value = some i → i < 0 →
        (Focus.reduce self (focusNodeView n ls)).map (fun fc => fc.1.level) =
          some FocusLevel.Unfocusable) ∧
      (parseI32 a.value = some 0 →
        (Focus.reduce self (focusNodeView n ls)).map (fun fc => fc.1.level) =
          some FocusLevel.Focusable) ∧
      (∀ i : Int, parseI32 a.value = some i → 0 < i → i.toNat % 65536 ≠ 0 →
        (Focus.reduce self (focusNodeView n ls)).map (fun fc => fc.1.level) =
          some (FocusLevel.Ordered (i.toNat % 65536))) ∧
      (∀ i : Int, parseI32 a.value = some i → 0 < i → i < 65536 →
        (Focus.reduce self (focusNodeView n ls)).map (fun fc => fc.1.level) =
          some (FocusLevel.Ordered i.toNat)) ∧
      (∀ i : Int, parseI32 a.value = some i → 0 < i → i.toNat % 65536 = 0 →
        Focus.reduce self (focusNodeView n ls) = none)) ∧
    (∀ (self : Focus) (n : VNode) (ls : List String),
      n.elAttrs.find? (fun x => x.name == "tabindex") = none →
      ((∃ l ∈ ls, l ∈ FOCUS_EVENTS) →
        (Focus.reduce self (focusNodeView n ls)).map (fun fc => fc.1.level) =
          some FocusLevel.Focusable) ∧
      ((∀ l ∈ ls, l ∉ FOCUS_EVENTS) →
        (Focus.reduce self (focusNodeView n ls)).map (fun fc => fc.1.level) =
          some FocusLevel.Unfocusable)) := by
  have hsorted : FOCUS_EVENTS.Sorted (· < ·) := (sortedStr_iff _).mp (by decide)
  have hbs : ∀ l : String,
      binarySearchContains FOCUS_EVENTS l = true ↔ l ∈ FOCUS_EVENTS :=
    fun l => binarySearchContains_iff hsorted l
  have hviewfind : ∀ (n : VNode) (ls : List String),
      (focusNodeView n ls).view.attributes.find?
          (fun x => x.name == "tabindex") =
        n.elAttrs.find? (fun x => x.name == "tabindex") := by
    intro n ls
    refine find_filter_eq _ _ _ ?_
    intro a ha
    have hname : a.name = "tabindex" := by simpa using ha
    rw [hname]
    show AttributeMask.contains_attribute (.Static FOCUS_ATTRIBUTES)
      "tabindex" = true
    decide
  refine ⟨hbs, hviewfind, ?_, ?_⟩
  · intro self n ls a hfind
    have hvf : (focusNodeView n ls).view.attributes.find?
        (fun x => x.name == "tabindex") = some a := by
      rw [hviewfind n ls, hfind]
    refine ⟨?_, ?_, ?_, ?_, ?_, ?_⟩
    · intro hp
      simp [Focus.reduce, hvf, hp, reduce_if_level, reduce_if_level2]
    · intro i hp hneg
      simp [Focus.reduce, hvf, hp, hneg, reduce_if_level, reduce_if_level2]
    · intro hp
      simp [Focus.reduce, hvf, hp, reduce_if_level, reduce_if_level2]
    · intro i hp hpos hmod
      simp [Focus.reduce, hvf, hp, show ¬ i < 0 by omega, show ¬ i = 0 by omega,
        hmod, reduce_if_level, reduce_if_level2]
    · intro i hp hpos hlt
      have hmodeq : i.toNat % 65536 = i.toNat := Nat.mod_eq_of_lt (by omega)
      have hne : ¬ i.toNat % 65536 = 0 := by omega
      simp [Focus.reduce, hvf, hp, show ¬ i < 0 by omega, show ¬ i = 0 by omega,
        hne, hmodeq, hpos, reduce_if_level, reduce_if_level2]
    · intro i hp hpos hmod
      simp [Focus.reduce, hvf, hp, show ¬ i < 0 by omega, show ¬ i = 0 by omega,
        hmod]
  · intro self n ls hfind
    have hvf : (focusNodeView n ls).view.attributes.find?
        (fun x => x.name == "tabindex") = none := by
      rw [hviewfind n ls, hfind]
    constructor
    · rintro ⟨l, hl, hlf⟩
      have hany : ls.any (fun l => binarySearchContains FOCUS_EVENTS l) = true :=
        List.any_eq_true.mpr ⟨l, hl, (hbs l).mpr hlf⟩
      have hvf2 : List.find? (fun x => x.name == "tabindex")
          (NodeView.mk n Focus.NODE_MASK).attributes = none := hvf
      simp [Focus.reduce, focusNodeView, hvf2, hany, reduce_if_level,
        reduce_if_level2]
    · intro hnone
      have hany : ls.any (fun l => binarySearchContains FOCUS_EVENTS l) = false := by
        rw [Bool.eq_false_iff]
        intro hc
        obtain ⟨l, hl, hp⟩ := List.any_eq_true.mp hc
        exact hnone l hl ((hbs l).mp hp)
      have hvf2 : List.find? (fun x => x.name == "tabindex")
          (NodeView.mk n Focus.NODE_MASK).attributes = none := hvf
      simp [Focus.reduce, focusNodeView, hvf2, hany, reduce_if_level,
        reduce_if_level2]

/-- Witness for the amended C2 theorem: a node with tabindex "2" gets level
`Ordered 2`. -/
theorem focus_reduce_level_amended_witness :
    (Focus.reduce Focus.default
      (focusNodeView (.element "div" none [⟨"tabindex", "2"⟩]) [])).map
        (fun fc => fc.1.level) = some (FocusLevel.Ordered 2) :=
  (focus_reduce_level_amended.2.2.1 Focus.default
      (.element "div" none [⟨"tabindex", "2"⟩]) [] ⟨"tabindex", "2"⟩
      (by decide)).2.2.2.2.1 2 (by decide) (by decide) (by decide)

/-- `a >= b` as Rust derives it from the hand-written `partial_cmp`. -/
def FocusLevel.flGe (a b : FocusLevel) : Bool :=
  match FocusLevel.partialCmp a b with
  | some .gt => true
  | some .eq => true
  | _ => false

/-- `a <= b` from `partial_cmp`. -/
def FocusLevel.flLe (a b : FocusLevel) : Bool :=
  match FocusLevel.partialCmp a b with
  | some .lt => true
  | some .eq => true
  | _ => false

/-- `a > b` from `partial_cmp`. -/
def FocusLevel.flGt (a b : FocusLevel) : Bool :=
  match FocusLevel.partialCmp a b with
  | some .gt => true
  | _ => false

/-- `a < b` from `partial_cmp`. -/
def FocusLevel.flLt (a b : FocusLevel) : Bool :=
  match FocusLevel.partialCmp a b with
  | some .lt => true
  | _ => false

/-- `ElementProduced` (native_core utils): whether the persistent iterator
progressed to the id or looped back around to it. -/
inductive ElementProduced where
  | Progressed (id : Nat)
  | Looped (id : Nat)
deriving DecidableEq, Repr

/-- `ElementProduced::id`. -/
def ElementProduced.elemId : ElementProduced → Nat
  | .Progressed i => i
  | .Looped i => i

def ElementProduced.isLooped : ElementProduced → Bool
  | .Progressed _ => false
  | .Looped _ => true

/-- Per-node focus-relevant state as the traversal reads it
(`rdom[id].state.focus` and `rdom[id].state.focused`). -/
structure FocusNodeState where
  focus : Focus
  focused : Bool

/-- Modelled from the spec: the `Dom` as the focus traversal sees it.
`order` is the depth-first document-order enumeration of the node ids
(§4.5: the persistent iterator walks a DFS document order and
`traverse_depth_first` visits every node in that order); `state` gives each
node's committed focus state. -/
structure FDom where
  order : List Nat
  state : Nat → FocusNodeState

/-- `FocusState` (focus.rs): the persistent iterator (its position in the
document order), the currently focused element, and the sought level. -/
structure FocusState where
  iterPos : Nat
  last_focused_id : Option Nat
  focus_level : FocusLevel

/-- Modelled from the spec: `PersistantElementIter::next` — step forward in
document order, reporting `Looped` when wrapping past the end. -/
def iterNext (d : FDom) (pos : Nat) : ElementProduced × Nat :=
  if pos + 1 < d.order.length then
    (.Progressed (d.order.getD (pos + 1) 0), pos + 1)
  else
    (.Looped (d.order.getD 0 0), 0)

/-- Modelled from the spec: `PersistantElementIter::prev` — step backward,
reporting `Looped` when wrapping past the start. -/
def iterPrev (d : FDom) (pos : Nat) : ElementProduced × Nat :=
  if pos = 0 then
    (.Looped (d.order.getD (d.order.length - 1) 0), d.order.length - 1)
  else
    (.Progressed (d.order.getD (pos - 1) 0), pos - 1)

/-- The wraparound scan of `progress` (focus.rs): a depth-first traversal
collecting the closest level strictly greater (forward) or strictly lesser
(backward) than the sought level, mirroring the source's nested
conditionals. -/
def closestLevel (d : FDom) (fl : FocusLevel) (forward : Bool) :
    Option FocusLevel :=
  d.order.foldl
    (fun acc nid =>
      let currentLevel := (d.state nid).focus.level
      if currentLevel ≠ fl then
        if forward then
          if currentLevel.flGt fl then
            match acc with
            | some level =>
              if currentLevel.flLt level then some currentLevel else acc
            | none => some currentLevel
          else acc
        else
          if currentLevel.flLt fl then
            match acc with
            | some level =>
              if currentLevel.flGt level then some currentLevel else acc
            | none => some currentLevel
          else acc
      else acc)
    none

/-- The main loop of `FocusState::progress` (focus.rs), fuel-recursive.
State: the loop marker, the sought focus level and the iterator position;
result: the found `next_focus` (if any), the final sought level and the
final iterator position.  Fuel exhaustion (`none` result) models a loop
that has not terminated within the fuel. -/
def progressLoop (d : FDom) (forward : Bool) (startFl : FocusLevel) :
    Nat → Option Nat → FocusLevel → Nat →
      Option (Nat × FocusLevel) × FocusLevel × Nat
  | 0, _, fl, pos => (none, fl, pos)
  | fuel + 1, marker, fl, pos =>
    let step := if forward then iterNext d pos else iterPrev d pos
    let newId := step.1.elemId
    let pos2 := step.2
    let currentLevel := (d.state newId).focus.level
    let fl1 :=
      if step.1.isLooped then
        match closestLevel d fl forward with
        | some level => level
        | none => if forward then FocusLevel.Unfocusable else FocusLevel.Focusable
      else fl
    let marker1 : Option Nat := if step.1.isLooped then none else marker
    if step.1.isLooped ∧ fl1 = startFl then (none, fl1, pos2)
    else
      let check : Option Nat → Option (Nat × FocusLevel) × FocusLevel × Nat :=
        fun m =>
          let after := if forward then currentLevel.flGe fl1
            else currentLevel.flLe fl1
          if after ∧ currentLevel.focusable ∧ currentLevel = fl1 then
            (some (newId, currentLevel), fl1, pos2)
          else progressLoop d forward startFl fuel m fl1 pos2
      match marker1 with
      | some last => if newId = last then (none, fl1, pos2) else check (some last)
      | none => check (some newId)

/-- Set the `focused` flag of one node. -/
def FDom.setFocused (d : FDom) (id : Nat) (v : Bool) : FDom :=
  ⟨d.order, fun n => if n = id then ⟨(d.state n).focus, v⟩ else d.state n⟩

/-- The cursor-reset loop at the end of `progress` (`while next/prev != id`),
fuel-recursive. -/
def repositionTo (d : FDom) (forward : Bool) (target : Nat) :
    Nat → Nat → Nat
  | 0, pos => pos
  | fuel + 1, pos =>
    let step := if forward then iterNext d pos else iterPrev d pos
    if step.1.elemId = target then step.2
    else repositionTo d forward target fuel step.2

/-- The body of `FocusState::progress` after the pass-focus guard. -/
def progressRest (fuel : Nat) (st : FocusState) (d : FDom) (forward : Bool) :
    Bool × FocusState × FDom :=
  let r := progressLoop d forward st.focus_level fuel st.last_focused_id
    st.focus_level st.iterPos
  match r.1 with
  | some (id, order) =>
    if order.focusable then
      let d1 := d.setFocused id true
      let d2 := match st.last_focused_id with
        | some old => d1.setFocused old false
        | none => d1
      let pos3 := repositionTo d2 forward id fuel r.2.2
      (true, ⟨pos3, some id, r.2.1⟩, d2)
    else (false, ⟨r.2.2, st.last_focused_id, r.2.1⟩, d)
  | none => (false, ⟨r.2.2, st.last_focused_id, r.2.1⟩, d)

/-- `FocusState::progress` (focus.rs).  The lock always succeeds in this
single-threaded model.  The guard comes first: when a node currently holds
focus and its pass-focus facet is false, the function returns false before
touching any state. -/
def FocusState.progress (fuel : Nat) (st : FocusState) (d : FDom)
    (forward : Bool) : Bool × FocusState × FDom :=
  match st.last_focused_id with
  | some last =>
    if !(d.state last).focus.pass_focus then (false, st, d)
    else progressRest fuel st d forward
  | none => progressRest fuel st d forward

/-- C9: if the currently focused node has pass-focus = false, `progress`
returns false in either direction and changes nothing: the dom (so the
focused flags), the cursor position, the focused id and the sought focus
level are all returned unchanged. -/
theorem progress_blocked_by_pass_focus (fuel : Nat) (st : FocusState)
    (d : FDom) (forward : Bool) (last : Nat)
    (hlast : st.last_focused_id = some last)
    (hpf : (d.state last).focus.pass_focus = false) :
    FocusState.progress fuel st d forward = (false, st, d) := by
  unfold FocusState.progress
  rw [hlast]
  simp [hpf]

/-- Witness for the C9 theorem: a concrete dom whose focused node has
pass-focus false. -/
theorem progress_blocked_by_pass_focus_witness :
    FocusState.progress 9 ⟨1, some 1, .Focusable⟩
      ⟨[0, 1], fun _ => ⟨⟨false, .Focusable⟩, true⟩⟩ true =
      (false, ⟨1, some 1, .Focusable⟩,
        ⟨[0, 1], fun _ => ⟨⟨false, .Focusable⟩, true⟩⟩) :=
  progress_blocked_by_pass_focus 9 ⟨1, some 1, .Focusable⟩
    ⟨[0, 1], fun _ => ⟨⟨false, .Focusable⟩, true⟩⟩ true 1 rfl rfl

/-- One registered pass as `update_state` consults it (`TypeErasedPass`):
its type id, its watched mask and its dependence flags. -/
structure PassInfo where
  this_type_id : Nat
  mask : NodeMask
  parent_dependant : Bool
  child_dependant : Bool
deriving DecidableEq, Repr

/-- The inputs the dirty-set construction of `RealDom::update_state`
(real_dom.rs) consumes: the tree's height lookup (`None` for ids that are
no longer in the tree) and the four accumulated dirty sources taken with
`mem::take`. -/
structure EngineState where
  heights : Nat → Option Nat
  passes : List PassInfo
  nodes_updated : List (Nat × NodeMask)
  child_changed_nodes : List Nat
  parent_changed_nodes : List Nat
  nodes_created : List Nat

/-- One loop body of `update_state`: for a source node n, look up its
height — a dead node (height `None`) contributes nothing — and otherwise
schedule `(pass, n, height)` for every pass satisfying the loop's
condition. -/
def passContribution (s : EngineState) (cond : PassInfo → Bool) (n : Nat) :
    List (Nat × Nat × Nat) :=
  match s.heights n with
  | some height =>
    s.passes.filterMap fun p =>
      if cond p then some (p.this_type_id, n, height) else none
  | none => []

/-- The dirty entries `update_state` (real_dom.rs) adds from its four
loops, in loop order: change masks intersected with each pass's watched
mask, the child-changed set for child-dependent passes, the parent-changed
set for parent-dependent passes, and the newly-created set for every
pass.  (These are inserted into the `DirtyNodeStates` taken from
`passes_updated`; membership below is what the set receives.) -/
def buildDirtyNodes (s : EngineState) : List (Nat × Nat × Nat) :=
  s.nodes_updated.foldl
      (fun acc nm =>
        acc ++ passContribution s (fun p => nm.2.overlaps p.mask) nm.1) []
    ++ s.child_changed_nodes.foldl
      (fun acc n => acc ++ passContribution s (fun p => p.child_dependant) n) []
    ++ s.parent_changed_nodes.foldl
      (fun acc n => acc ++ passContribution s (fun p => p.parent_dependant) n) []
    ++ s.nodes_created.foldl
      (fun acc n => acc ++ passContribution s (fun _ => true) n) []

theorem mem_foldl_append {α β : Type} (g : α → List β) (l : List α)
    (acc : List β) (x : β) :
    x ∈ l.foldl (fun a i => a ++ g i) acc ↔ x ∈ acc ∨ ∃ i ∈ l, x ∈ g i := by
  induction l generalizing acc with
  | nil => simp
  | cons y ys ih =>
    rw [List.foldl_cons, ih, List.mem_append]
    constructor
    · rintro ((hacc | hgy) | ⟨i, hi, hx⟩)
      · exact Or.inl hacc
      · exact Or.inr ⟨y, List.mem_cons_self y ys, hgy⟩
      · exact Or.inr ⟨i, List.mem_cons_of_mem y hi, hx⟩
    · rintro (hacc | ⟨i, hi, hx⟩)
      · exact Or.inl (Or.inl hacc)
      · rcases List.mem_cons.mp hi with rfl | hi2
        · exact Or.inl (Or.inr hx)
        · exact Or.inr ⟨i, hi2, hx⟩

theorem passContribution_mem (s : EngineState) (cond : PassInfo → Bool)
    (n pid m h : Nat) :
    (pid, m, h) ∈ passContribution s cond n ↔
      m = n ∧ s.heights n = some h ∧
        ∃ p ∈ s.passes, cond p = true ∧ p.this_type_id = pid := by
  unfold passContribution
  cases hh : s.heights n with
  | none => simp
  | some height =>
    rw [List.mem_filterMap]
    constructor
    · rintro ⟨p, hp, hif⟩
      by_cases hc : cond p = true
      · rw [if_pos hc] at hif
        have heq := Option.some.inj hif
        have e1 : p.this_type_id = pid := congrArg Prod.fst heq
        have e2 : n = m := congrArg (fun z => z.2.1) heq
        have e3 : height = h := congrArg (fun z => z.2.2) heq
        subst e2
        subst e3
        exact ⟨rfl, rfl, p, hp, hc, e1⟩
      · rw [if_neg hc] at hif
        exact absurd hif (by simp)
    · rintro ⟨rfl, hsome, p, hp, hc, rfl⟩
      have e3 : h = height := (Option.some.inj hsome).symm
      subst e3
      exact ⟨p, hp, by rw [if_pos hc]⟩

theorem mem_buildDirtyNodes (s : EngineState) (x : Nat × Nat × Nat) :
    x ∈ buildDirtyNodes s ↔
      (∃ nm ∈ s.nodes_updated,
        x ∈ passContribution s (fun p => nm.2.overlaps p.mask) nm.1) ∨
      (∃ n ∈ s.child_changed_nodes,
        x ∈ passContribution s (fun p => p.child_dependant) n) ∨
      (∃ n ∈ s.parent_changed_nodes,
        x ∈ passContribution s (fun p => p.parent_dependant) n) ∨
      (∃ n ∈ s.nodes_created, x ∈ passContribution s (fun _ => true) n) := by
  unfold buildDirtyNodes
  simp only [List.mem_append, mem_foldl_append, List.not_mem_nil, false_or]
  rw [or_assoc, or_assoc]

/-- C6: during `update_state`, every dirty entry from the four sources
(change masks, child-changed, parent-changed, newly-created) is scheduled
with its node's current height, a node whose height lookup fails (removed
from the tree) is silently dropped — it contributes no entry, a no-op
rather than an error — and every live source node is scheduled for each
pass the loop's condition selects. -/
theorem update_state_liveness (s : EngineState) :
    (∀ pid n h, (pid, n, h) ∈ buildDirtyNodes s → s.heights n = some h) ∧
    (∀ n, s.heights n = none →
      ∀ pid h, (pid, n, h) ∉ buildDirtyNodes s) ∧
    (∀ n mask, (n, mask) ∈ s.nodes_updated → ∀ h, s.heights n = some h →
      ∀ p ∈ s.passes, mask.overlaps p.mask = true →
        (p.this_type_id, n, h) ∈ buildDirtyNodes s) ∧
    (∀ n, n ∈ s.child_changed_nodes → ∀ h, s.heights n = some h →
      ∀ p ∈ s.passes, p.child_dependant = true →
        (p.this_type_id, n, h) ∈ buildDirtyNodes s) ∧
    (∀ n, n ∈ s.parent_changed_nodes → ∀ h, s.heights n = some h →
      ∀ p ∈ s.passes, p.parent_dependant = true →
        (p.this_type_id, n, h) ∈ buildDirtyNodes s) ∧
    (∀ n, n ∈ s.nodes_created → ∀ h, s.heights n = some h →
      ∀ p ∈ s.passes, (p.this_type_id, n, h) ∈ buildDirtyNodes s) := by
  have hlive : ∀ pid n h, (pid, n, h) ∈ buildDirtyNodes s →
      s.heights n = some h := by
    intro pid n h hmem
    rcases (mem_buildDirtyNodes s _).mp hmem with
      ⟨nm, _, hx⟩ | ⟨m, _, hx⟩ | ⟨m, _, hx⟩ | ⟨m, _, hx⟩ <;>
      · obtain ⟨rfl, hh, _⟩ := (passContribution_mem ..).mp hx
        exact hh
  refine ⟨hlive, ?_, ?_, ?_, ?_, ?_⟩
  · intro n hnone pid h hmem
    rw [hlive pid n h hmem] at hnone
    exact Option.noConfusion hnone
  · intro n mask hmem h hh p hp hov
    exact (mem_buildDirtyNodes s _).mpr
      (Or.inl ⟨(n, mask), hmem,
        (passContribution_mem ..).mpr ⟨rfl, hh, p, hp, hov, rfl⟩⟩)
  · intro n hmem h hh p hp hc
    exact (mem_buildDirtyNodes s _).mpr
      (Or.inr (Or.inl ⟨n, hmem,
        (passContribution_mem ..).mpr ⟨rfl, hh, p, hp, hc, rfl⟩⟩))
  · intro n hmem h hh p hp hc
    exact (mem_buildDirtyNodes s _).mpr
      (Or.inr (Or.inr (Or.inl ⟨n, hmem,
        (passContribution_mem ..).mpr ⟨rfl, hh, p, hp, hc, rfl⟩⟩)))
  · intro n hmem h hh p hp
    exact (mem_buildDirtyNodes s _).mpr
      (Or.inr (Or.inr (Or.inr ⟨n, hmem,
        (passContribution_mem ..).mpr ⟨rfl, hh, p, hp, rfl, rfl⟩⟩)))

/-- Witness for the C6 theorem: a one-pass engine state with one live
updated node (height 2) and one dead created node (height lookup fails). -/
theorem update_state_liveness_witness :
    (7, 1, 2) ∈ buildDirtyNodes
      ⟨fun n => if n = 1 then some 2 else none,
        [⟨7, NodeMask.ALL, false, true⟩],
        [(1, ⟨.Static ["a"], true, false, false⟩)], [1], [], [5]⟩ ∧
    ¬ (7, 5, 0) ∈ buildDirtyNodes
      ⟨fun n => if n = 1 then some 2 else none,
        [⟨7, NodeMask.ALL, false, true⟩],
        [(1, ⟨.Static ["a"], true, false, false⟩)], [1], [], [5]⟩ :=
  ⟨(update_state_liveness _).2.2.1 1 ⟨.Static ["a"], true, false, false⟩
      (by simp) 2 rfl ⟨7, NodeMask.ALL, false, true⟩ (by simp) (by decide),
    (update_state_liveness _).2.1 5 rfl 7 0⟩

/-- Modelled from the spec: the Tree Store (`crate::tree` is not among the
sources).  Per §4.1/§3 it is an arena of nodes with parent/child linkage:
`nodes` lists the live identities, `parentF` and `childrenF` give the
linkage (meaningful for live identities). -/
structure Tree where
  nodes : List Nat
  parentF : Nat → Option Nat
  childrenF : Nat → List Nat

def Tree.contains (t : Tree) (id : Nat) : Bool := t.nodes.contains id

def Tree.parent_id (t : Tree) (id : Nat) : Option Nat := t.parentF id

/-- Modelled from the spec (§4.1 `add_child`): append the child to the
parent's ordered child list and set its parent link. -/
def Tree.add_child (t : Tree) (p c : Nat) : Tree :=
  { nodes := t.nodes
    parentF := fun n => if n = c then some p else t.parentF n
    childrenF := fun n => if n = p then t.childrenF n ++ [c] else t.childrenF n }

/-- Insert `new` immediately before the first occurrence of `anchor`. -/
def insertBeforeList (anchor new : Nat) : List Nat → List Nat
  | [] => []
  | x :: xs =>
    if x = anchor then new :: x :: xs
    else x :: insertBeforeList anchor new xs

/-- Modelled from the spec (§4.1 `insert_before`): place the node before
the anchor among the anchor's siblings and set its parent link. -/
def Tree.insert_before (t : Tree) (anchor new : Nat) : Tree :=
  match t.parentF anchor with
  | none => t
  | some pa =>
    { nodes := t.nodes
      parentF := fun n => if n = new then some pa else t.parentF n
      childrenF := fun n =>
        if n = pa then insertBeforeList anchor new (t.childrenF n)
        else t.childrenF n }

/-- Subtree collection with structural fuel (one level per unit). -/
def Tree.descendantsGo (t : Tree) : Nat → Nat → List Nat
  | 0, id => [id]
  | fuel + 1, id => id :: (t.childrenF id).flatMap (t.descendantsGo fuel)

/-- Modelled from the spec (§4.1/§3): a node's subtree — itself and all
nodes reachable through child links. -/
def Tree.descendants (t : Tree) (id : Nat) : List Nat :=
  t.descendantsGo (t.nodes.length + 1) id

/-- Modelled from the spec (§4.1 `remove`, subtree-wide): detach the node
from its parent's child list and delete the node and its whole subtree from
the live set. -/
def Tree.remove (t : Tree) (id : Nat) : Tree :=
  let ds := t.descendants id
  { nodes := t.nodes.filter (fun n => !ds.contains n)
    parentF := fun n => if n = id then none else t.parentF n
    childrenF := fun n =>
      match t.parentF id with
      | some pa =>
        if n = pa then (t.childrenF n).erase id else t.childrenF n
      | none => t.childrenF n }

/-- Modelled from the spec (§4.1/§3): height = depth from the root,
following parent links; `none` when the identity is not live. -/
def Tree.heightGo (t : Tree) : Nat → Nat → Option Nat
  | 0, _ => none
  | fuel + 1, id =>
    if t.contains id then
      match t.parentF id with
      | none => some 0
      | some p => (t.heightGo fuel p).map (· + 1)
    else none

def Tree.height (t : Tree) (id : Nat) : Option Nat :=
  t.heightGo (t.nodes.length + 1) id

theorem self_mem_descendants (t : Tree) (id : Nat) :
    id ∈ t.descendants id := by
  unfold Tree.descendants Tree.descendantsGo
  exact List.mem_cons_self id _

theorem insertBeforeList_eq (anchor new : Nat) :
    ∀ (pre post : List Nat), anchor ∉ pre →
      insertBeforeList anchor new (pre ++ anchor :: post) =
        pre ++ new :: anchor :: post := by
  intro pre
  induction pre with
  | nil =>
    intro post _
    simp [insertBeforeList]
  | cons x xs ih =>
    intro post hpre
    have hx : x ≠ anchor := fun he => hpre (he ▸ List.mem_cons_self x xs)
    simp only [List.cons_append, insertBeforeList, if_neg hx]
    exact congrArg (fun l => x :: l)
      (ih post (fun hm => hpre (List.mem_cons_of_mem x hm)))

/-- Folding `insert_before anchor` over the popped nodes inserts them, in
fold order, immediately before the anchor, and touches neither the
anchor's parent link nor the live set. -/
theorem foldl_insert_before_children :
    ∀ (ns : List Nat) (t : Tree) (anchor pa : Nat) (pre post : List Nat),
      t.parentF anchor = some pa →
      t.childrenF pa = pre ++ anchor :: post →
      anchor ∉ pre → anchor ∉ ns →
      ((ns.foldl (fun tt c => tt.insert_before anchor c) t).childrenF pa =
          pre ++ ns ++ anchor :: post) ∧
        (ns.foldl (fun tt c => tt.insert_before anchor c) t).parentF anchor =
          some pa ∧
        (ns.foldl (fun tt c => tt.insert_before anchor c) t).nodes = t.nodes := by
  intro ns
  induction ns with
  | nil =>
    intro t anchor pa pre post hpar hch hpre hns
    simpa using ⟨hch, hpar⟩
  | cons c cs ih =>
    intro t anchor pa pre post hpar hch hpre hns
    have hcne : c ≠ anchor := fun he => hns (he ▸ List.mem_cons_self c cs)
    have hanc : anchor ≠ c := fun he => hcne he.symm
    have hstep : (t.insert_before anchor c).parentF anchor = some pa ∧
        (t.insert_before anchor c).childrenF pa =
          (pre ++ [c]) ++ anchor :: post ∧
        (t.insert_before anchor c).nodes = t.nodes := by
      unfold Tree.insert_before
      rw [hpar]
      refine ⟨?_, ?_, rfl⟩
      · show (if anchor = c then some pa else t.parentF anchor) = some pa
        rw [if_neg hanc]
        exact hpar
      · show (if pa = pa then insertBeforeList anchor c (t.childrenF pa)
            else t.childrenF pa) = (pre ++ [c]) ++ anchor :: post
        rw [if_pos rfl, hch, insertBeforeList_eq anchor c pre post hpre]
        simp [List.append_assoc]
    have hres := ih (t.insert_before anchor c) anchor pa (pre ++ [c]) post
      hstep.1 hstep.2.1
      (by
        intro hm
        rcases List.mem_append.mp hm with hm1 | hm2
        · exact hpre hm1
        · exact hanc (List.mem_singleton.mp hm2))
      (fun hm => hns (List.mem_cons_of_mem c hm))
    rw [List.foldl_cons]
    refine ⟨?_, hres.2.1, hres.2.2.trans hstep.2.2⟩
    rw [hres.1]
    simp [List.append_assoc]

/-- Node payload (crate::node `NodeType`), restricted to the facets the
operations modelled here touch: an element carries its tag and listener
set; text and placeholder carry no listeners. -/
inductive RNodeType where
  | Element (tag : String) (listeners : List String)
  | TextNode (value : String)
  | Placeholder
deriving DecidableEq, Repr

/-- The `RealDom` state (real_dom.rs) as the modelled operations read and
write it: the tree, the external-to-internal identity map, the
event-listener reverse index, the operand stack, the node payloads, and the
structural-change marks (`mark_parent_added_or_removed` /
`mark_child_changed`; sets modelled as lists). -/
structure RDom where
  tree : Tree
  node_id_mapping : List (Option Nat)
  nodes_listening : List (String × List Nat)
  stack : List Nat
  data : Nat → RNodeType
  parent_changed_nodes : List Nat
  child_changed_nodes : List Nat

/-- `RealDom::element_to_node_id` (real_dom.rs):
`self.node_id_mapping.get(id.0).unwrap().unwrap()` — either unwrap panics
(`none` here) when the external id is unbound. -/
def RDom.element_to_node_id (d : RDom) (eid : Nat) : Option Nat :=
  match d.node_id_mapping.get? eid with
  | some (some nid) => some nid
  | _ => none

/-- Lookup in the `nodes_listening` reverse index. -/
def listeningLookup (l : List (String × List Nat)) (name : String) :
    Option (List Nat) :=
  (l.find? (fun e => e.1 == name)).map (·.2)

/-- The `NewEventListener` bookkeeping on `nodes_listening`: insert the
node into the event's set, creating the entry if absent. -/
def listeningInsert (l : List (String × List Nat)) (name : String)
    (id : Nat) : List (String × List Nat) :=
  match l.find? (fun e => e.1 == name) with
  | some _ =>
    l.map fun e =>
      if e.1 == name then (e.1, if e.2.contains id then e.2 else e.2 ++ [id])
      else e
  | none => l ++ [(name, [id])]

/-- The `RemoveEventListener` bookkeeping:
`self.nodes_listening.get_mut(name).unwrap().remove(&node_id)` — `none`
models the unwrap panic when the event has no entry. -/
def listeningRemove (l : List (String × List Nat)) (name : String)
    (id : Nat) : Option (List (String × List Nat)) :=
  match l.find? (fun e => e.1 == name) with
  | some _ =>
    some (l.map fun e => if e.1 == name then (e.1, e.2.erase id) else e)
  | none => none

/-- `RealDom::remove` (real_dom.rs): mark the parent's child set changed,
then remove the subtree from the tree.  Note it does NOT touch
`nodes_listening`. -/
def RDom.remove (d : RDom) (id : Nat) : RDom :=
  let d1 :=
    match d.tree.parent_id id with
    | some pa => { d with child_changed_nodes := d.child_changed_nodes ++ [pa] }
    | none => d
  { d1 with tree := d1.tree.remove id }

/-- The edit operations of `apply_mutations` (real_dom.rs) that the claims
exercise (the remaining operations — creation, templates, attributes,
text — are independent of these claims). -/
inductive Mutation where
  | AppendChildren (id : Nat) (m : Nat)
  | ReplaceWith (id : Nat) (m : Nat)
  | InsertBefore (id : Nat) (m : Nat)
  | Remove (id : Nat)
  | NewEventListener (name : String) (id : Nat)
  | RemoveEventListener (name : String) (id : Nat)
  | PushRoot (id : Nat)

/-- One iteration of the edit loop of `apply_mutations` (real_dom.rs).
`none` models the panics: unbound external id, popping more than the stack
holds (`split_off` out of range), or removing a listener for an event with
no reverse-index entry.  Note `AppendChildren` pops the top `m` nodes in
stack order (bottom-to-top) and appends them in that order;
`ReplaceWith`/`InsertBefore` insert each popped node before the anchor via
`self.tree.insert_before` (no dirty marks), and `ReplaceWith` then calls
`self.remove` on the anchor. -/
def applyEdit (d : RDom) : Mutation → Option RDom
  | .AppendChildren id m =>
    if m ≤ d.stack.length then
      match d.element_to_node_id id with
      | some parent =>
        some { d with
          tree := (d.stack.drop (d.stack.length - m)).foldl
            (fun t c => t.add_child parent c) d.tree
          stack := d.stack.take (d.stack.length - m) }
      | none => none
    else none
  | .ReplaceWith id m =>
    if m ≤ d.stack.length then
      match d.element_to_node_id id with
      | some old =>
        let d1 := { d with
          tree := (d.stack.drop (d.stack.length - m)).foldl
            (fun t c => t.insert_before old c) d.tree
          stack := d.stack.take (d.stack.length - m) }
        some (d1.remove old)
      | none => none
    else none
  | .InsertBefore id m =>
    if m ≤ d.stack.length then
      match d.element_to_node_id id with
      | some old =>
        some { d with
          tree := (d.stack.drop (d.stack.length - m)).foldl
            (fun t c => t.insert_before old c) d.tree
          stack := d.stack.take (d.stack.length - m) }
      | none => none
    else none
  | .Remove id =>
    match d.element_to_node_id id with
    | some nid => some (d.remove nid)
    | none => none
  | .NewEventListener name id =>
    match d.element_to_node_id id with
    | some nid =>
      match d.data nid with
      | .Element tag ls =>
        some { d with
          data := fun n =>
            if n = nid then
              .Element tag (if ls.contains name then ls else ls ++ [name])
            else d.data n
          nodes_listening := listeningInsert d.nodes_listening name nid }
      | _ => some d
    | none => none
  | .RemoveEventListener name id =>
    match d.element_to_node_id id with
    | some nid =>
      let d1 := { d with
        data := fun n =>
          match d.data n with
          | .Element tag ls =>
            if n = nid then .Element tag (ls.erase name) else d.data n
          | _ => d.data n }
      match listeningRemove d1.nodes_listening name nid with
      | some nl => some { d1 with nodes_listening := nl }
      | none => none
    | none => none
  | .PushRoot id =>
    match d.element_to_node_id id with
    | some nid => some { d with stack := d.stack ++ [nid] }
    | none => none

/-- The edit loop: apply operations in log order, aborting on panic. -/
def applyEdits (d : RDom) : List Mutation → Option RDom
  | [] => some d
  | e :: es =>
    match applyEdit d e with
    | some d2 => applyEdits d2 es
    | none => none

/-- Stable insertion keeping larger heights first (equal heights keep
their relative order, as Rust's stable `sort_by` does). -/
def insertByHeightDesc (x : Nat × Nat) : List (Nat × Nat) → List (Nat × Nat)
  | [] => [x]
  | y :: ys => if y.2 < x.2 then x :: y :: ys else y :: insertByHeightDesc x ys

def sortByHeightDesc : List (Nat × Nat) → List (Nat × Nat)
  | [] => []
  | x :: xs => insertByHeightDesc x (sortByHeightDesc xs)

/-- `RealDom::get_listening_sorted` (real_dom.rs): pair every node
listening for the event with `self.tree.height(*id).unwrap()` (`none`
models that unwrap panicking on a node no longer in the tree), sort by
height descending, and return the ids. -/
def RDom.get_listening_sorted (d : RDom) (event : String) :
    Option (List Nat) :=
  match listeningLookup d.nodes_listening event with
  | some ids =>
    (ids.mapM (fun id => (d.tree.height id).map (fun h => (id, h)))).map
      (fun pairs => (sortByHeightDesc pairs).map (·.1))
  | none => some []

theorem erase_not_mem_append {a : Nat} :
    ∀ (l₁ l₂ : List Nat), a ∉ l₁ →
      (l₁ ++ a :: l₂).erase a = l₁ ++ l₂ := by
  intro l₁
  induction l₁ with
  | nil =>
    intro l₂ _
    simp [List.erase_cons]
  | cons x xs ih =>
    intro l₂ h
    have hx : (x == a) = false := by
      simp only [beq_eq_false_iff_ne, ne_eq]
      exact fun he => h (he ▸ List.mem_cons_self x xs)
    simp only [List.cons_append, List.erase_cons, hx, Bool.false_eq_true,
      if_false]
    rw [ih l₂ (fun hm => h (List.mem_cons_of_mem x hm))]

theorem RDom.remove_tree (d : RDom) (id : Nat) :
    (d.remove id).tree = d.tree.remove id := by
  unfold RDom.remove
  cases d.tree.parent_id id <;> rfl

theorem RDom.remove_stack (d : RDom) (id : Nat) :
    (d.remove id).stack = d.stack := by
  unfold RDom.remove
  cases d.tree.parent_id id <;> rfl

/-- C7: `append-children(p, 2)` after pushes of X then Y pops both and
appends them to p's children in that order, so p's child list ends with
[X, Y]. -/
theorem append_children_popped_order (d : RDom) (eid p X Y : Nat)
    (st : List Nat)
    (hmap : d.element_to_node_id eid = some p)
    (hstack : d.stack = st ++ [X, Y]) :
    ∃ d2, applyEdit d (.AppendChildren eid 2) = some d2 ∧
      d2.tree.childrenF p = d.tree.childrenF p ++ [X, Y] ∧
      d2.stack = st := by
  have hlen : d.stack.length = st.length + 2 := by
    rw [hstack]
    simp
  have hm2 : 2 ≤ d.stack.length := by omega
  have hdrop : d.stack.drop (d.stack.length - 2) = [X, Y] := by
    rw [hstack, show (st ++ [X, Y]).length - 2 = st.length from by simp,
      List.drop_left]
  have htake : d.stack.take (d.stack.length - 2) = st := by
    rw [hstack, show (st ++ [X, Y]).length - 2 = st.length from by simp,
      List.take_left]
  have happ : applyEdit d (.AppendChildren eid 2) =
      some { d with
        tree := [X, Y].foldl (fun t c => t.add_child p c) d.tree
        stack := st } := by
    simp only [applyEdit, if_pos hm2, hmap, hdrop, htake]
  refine ⟨_, happ, ?_, rfl⟩
  show ((d.tree.add_child p X).add_child p Y).childrenF p =
    d.tree.childrenF p ++ [X, Y]
  simp [Tree.add_child]

/-- Witness for the C7 theorem at a concrete dom. -/
theorem append_children_popped_order_witness :
    ∃ d2, applyEdit
      ⟨⟨[0, 1, 2], fun _ => none, fun _ => []⟩, [some 0], [], [1, 2],
        fun _ => .Placeholder, [], []⟩
      (.AppendChildren 0 2) = some d2 ∧
      d2.tree.childrenF 0 = [] ++ [1, 2] ∧ d2.stack = [] :=
  append_children_popped_order _ 0 0 1 2 [] rfl rfl

/-- C8: `replace(anchor, m)` pops the m pushed nodes, inserts them before
the anchor in popped order, and removes the anchor together with its whole
subtree, leaving the popped nodes at the anchor's former position among its
former siblings (for m = 1, the single popped node N sits exactly where the
anchor was). -/
theorem replace_with_semantics (d : RDom) (eid anchor pa : Nat)
    (st ns pre post : List Nat)
    (hmap : d.element_to_node_id eid = some anchor)
    (hstack : d.stack = st ++ ns)
    (hpar : d.tree.parentF anchor = some pa)
    (hch : d.tree.childrenF pa = pre ++ anchor :: post)
    (hpre : anchor ∉ pre) (hns : anchor ∉ ns) :
    ∃ d2, applyEdit d (.ReplaceWith eid ns.length) = some d2 ∧
      d2.tree.childrenF pa = pre ++ ns ++ post ∧
      d2.stack = st ∧
      (∀ x ∈ (ns.foldl (fun t c => t.insert_before anchor c)
          d.tree).descendants anchor,
        d2.tree.contains x = false) ∧
      d2.tree.contains anchor = false := by
  have hlen : d.stack.length = st.length + ns.length := by
    rw [hstack]
    simp
  have hm : ns.length ≤ d.stack.length := by omega
  have hdrop : d.stack.drop (d.stack.length - ns.length) = ns := by
    rw [hstack, show (st ++ ns).length - ns.length = st.length from by simp,
      List.drop_left]
  have htake : d.stack.take (d.stack.length - ns.length) = st := by
    rw [hstack, show (st ++ ns).length - ns.length = st.length from by simp,
      List.take_left]
  obtain ⟨hch2, hpar2, hnodes2⟩ :=
    foldl_insert_before_children ns d.tree anchor pa pre post hpar hch hpre hns
  have happ : applyEdit d (.ReplaceWith eid ns.length) =
      some (RDom.remove
        { d with
          tree := ns.foldl (fun t c => t.insert_before anchor c) d.tree
          stack := st } anchor) := by
    simp only [applyEdit, if_pos hm, hmap, hdrop, htake]
  have hremoved : ∀ x ∈ (ns.foldl (fun t c => t.insert_before anchor c)
      d.tree).descendants anchor,
      ((ns.foldl (fun t c => t.insert_before anchor c)
        d.tree).remove anchor).contains x = false := by
    intro x hx
    apply Bool.eq_false_iff.mpr
    intro hc
    have hmem : x ∈ ((ns.foldl (fun t c => t.insert_before anchor c)
        d.tree).remove anchor).nodes := List.mem_of_elem_eq_true hc
    have hmem2 : x ∈ (ns.foldl (fun t c => t.insert_before anchor c)
        d.tree).nodes.filter
        (fun n => !((ns.foldl (fun t c => t.insert_before anchor c)
          d.tree).descendants anchor).contains n) := hmem
    have h2 := (List.mem_filter.mp hmem2).2
    rw [Bool.not_eq_true'] at h2
    have helem : ((ns.foldl (fun t c => t.insert_before anchor c)
        d.tree).descendants anchor).elem x = true :=
      List.elem_eq_true_of_mem hx
    have hfalse : ((ns.foldl (fun t c => t.insert_before anchor c)
        d.tree).descendants anchor).elem x = false := h2
    rw [hfalse] at helem
    exact Bool.noConfusion helem
  refine ⟨_, happ, ?_, ?_, ?_, ?_⟩
  · rw [RDom.remove_tree]
    show (match (ns.foldl (fun t c => t.insert_before anchor c)
        d.tree).parentF anchor with
      | some pb =>
        if pa = pb then
          ((ns.foldl (fun t c => t.insert_before anchor c)
            d.tree).childrenF pa).erase anchor
        else (ns.foldl (fun t c => t.insert_before anchor c)
          d.tree).childrenF pa
      | none => (ns.foldl (fun t c => t.insert_before anchor c)
          d.tree).childrenF pa) = pre ++ ns ++ post
    rw [hpar2]
    show (if pa = pa then
        ((ns.foldl (fun t c => t.insert_before anchor c)
          d.tree).childrenF pa).erase anchor
      else (ns.foldl (fun t c => t.insert_before anchor c)
        d.tree).childrenF pa) = pre ++ ns ++ post
    rw [if_pos rfl, hch2,
      erase_not_mem_append (pre ++ ns) post (by
        intro hm
        rcases List.mem_append.mp hm with h1 | h2
        · exact hpre h1
        · exact hns h2)]
  · rw [RDom.remove_stack]
  · intro x hx
    rw [RDom.remove_tree]
    exact hremoved x hx
  · rw [RDom.remove_tree]
    exact hremoved anchor (self_mem_descendants _ _)

/-- A concrete dom for the C8 witness: root 0 with one child 1 (the
anchor), a spare node 2 on the stack; node 1 bound to external id 1. -/
def exampleReplaceDom : RDom :=
  ⟨⟨[0, 1, 2], fun n => if n = 1 then some 0 else none,
      fun n => if n = 0 then [1] else []⟩,
    [some 0, some 1], [], [2], fun _ => .Placeholder, [], []⟩

/-- Witness for the C8 theorem: replacing anchor 1 with popped node 2
leaves [2] as root's children and removes node 1. -/
theorem replace_with_semantics_witness :
    ∃ d2, applyEdit exampleReplaceDom (.ReplaceWith 1 1) = some d2 ∧
      d2.tree.childrenF 0 = [2] ∧ d2.stack = [] ∧
      d2.tree.contains 1 = false := by
  obtain ⟨d2, h1, h2, h3, _, h5⟩ :=
    replace_with_semantics exampleReplaceDom 1 1 0 [] [2] [] []
      rfl rfl rfl rfl (by simp) (by simp)
  exact ⟨d2, h1, by simpa using h2, h3, h5⟩

/-- A concrete dom for the C4 evaluation: root 0 with one element child 1,
bound to external id 1; empty reverse index. -/
def exampleListeningDom : RDom :=
  ⟨⟨[0, 1], fun n => if n = 1 then some 0 else none,
      fun n => if n = 0 then [1] else []⟩,
    [some 0, some 1], [], [0],
    fun n => if n = 0 then .Element "Root" [] else .Element "div" [], [], []⟩

/-- C4 (code-bug evaluation): register a "click" listener on node 1, then
remove node 1.  The node is gone from the tree, but its entry is STILL in
`nodes_listening` (RealDom::remove never touches the reverse index), and
`get_listening_sorted("click")` panics (`none`) unwrapping the height of
the removed node — the code violates its own assumption that every
listed node is live. -/
theorem remove_leaves_stale_listening :
    (applyEdits exampleListeningDom
      [.NewEventListener "click" 1, .Remove 1]).map
      (fun d => (listeningLookup d.nodes_listening "click",
        d.tree.contains 1,
        d.get_listening_sorted "click")) =
    some (some [1], false, none) := by
  decide

end Blitz
